import Mathlib

/-!
# spdxer: header boundary detection and header replacement

A shallow embedding of `findLineStart`, `trimSource` and the per-file rewrite
performed in the loop of `parse` (src/main.go), followed by theorems about them.

Modelling conventions.

* A Go `string` / `[]byte` is a finite sequence of bytes; it is modelled as a
  `List Char` (`Text`).  Only equality of single bytes and the newline byte are
  ever inspected by the code, so one list element stands for one byte.
* Go `int` is a 64-bit two's complement integer.  It is modelled as `Int`;
  the only subtraction applied to an arbitrary caller-supplied `int`
  (`start-1` in `trimSource`) is wrapped explicitly with `wrapInt`.
  Line counters (`lineNum`, `lineNum+1`, `pkgLine-1` with `pkgLine ≥ 0`) are
  bounded by the length of a slice and cannot overflow.
* The package-level map `licenses` is a parameter: the list of its values in
  the order the `range` loop happens to visit them (the constant
  `GPL30ORLATER` is not part of the sources at hand, and Go leaves the
  iteration order of a map unspecified).
-/

namespace Spdxer

/-- A Go string, byte by byte. -/
abbrev Text := List Char

/-! ## Library functions used by the program -/

/-- The Go call `strings.Split(s, "\n")`: the pieces of `s` between newlines.
The result always has one more piece than `s` has newlines; in particular the
empty string gives one empty piece. -/
def splitLines : Text → List Text
  | [] => [[]]
  | c :: cs =>
    if c = '\n' then [] :: splitLines cs
    else
      match splitLines cs with
      | [] => [[c]]
      | l :: ls => (c :: l) :: ls

/-- The Go call `strings.HasPrefix(s, p)`. -/
def hasPrefix (s p : Text) : Bool := p.isPrefixOf s

/-- The Go call `strings.Contains(s, sub)`: `sub` occurs in `s` at some offset. -/
def contains : Text → Text → Bool
  | [], sub => sub.isPrefixOf []
  | c :: cs, sub => sub.isPrefixOf (c :: cs) || contains cs sub

/-- The Go call `sort.Ints(a)`: the elements of `a` in ascending order. -/
def sortInts (a : List Int) : List Int := a.insertionSort (fun x y => x ≤ y)

/-- Number of bits of a Go `int`. -/
def intBits : Nat := 64

/-- Smallest value of a Go `int`. -/
def minInt : Int := -(2 ^ (intBits - 1))

/-- Largest value of a Go `int`. -/
def maxInt : Int := 2 ^ (intBits - 1) - 1

/-- Two's complement wrap-around of an integer result into the range of `int`. -/
def wrapInt (x : Int) : Int := (x + 2 ^ (intBits - 1)) % 2 ^ intBits - 2 ^ (intBits - 1)

/-! ## `findLineStart` -/

/-- The literal `"package "`. -/
def pkgPrefix : Text := ['p', 'a', 'c', 'k', 'a', 'g', 'e', ' ']

/-- First loop of `findLineStart` (lines 82-88), entered at index `lineNum`
with `pkgLine` still `0`: the value of `pkgLine` after the loop. -/
def findPkgLine : List Text → Nat → Int
  | [], _ => 0
  | line :: rest, lineNum =>
    if hasPrefix line pkgPrefix then (lineNum : Int) + 1
    else findPkgLine rest (lineNum + 1)

/-- Inner loop of `findLineStart` (lines 100-105): one append of `lineNum+1`
for every registered license text contained in `line`. -/
def appendMatches (line : Text) (lineNum : Nat) : List Text → List Int → List Int
  | [], licenseLine => licenseLine
  | license :: rest, licenseLine =>
    if contains line license then
      appendMatches line lineNum rest (licenseLine ++ [(lineNum : Int) + 1])
    else appendMatches line lineNum rest licenseLine

/-- Second loop of `findLineStart` (lines 95-106), entered at index `lineNum`
with the slice `licenseLine` collected so far. -/
def scanLicenses (licenses : List Text) (pkgLine : Int) :
    List Text → Nat → List Int → List Int
  | [], _, licenseLine => licenseLine
  | line :: rest, lineNum, licenseLine =>
    if (lineNum : Int) = pkgLine - 1 then licenseLine
    else
      scanLicenses licenses pkgLine rest (lineNum + 1)
        (appendMatches line lineNum licenses licenseLine)

/-- The function `findLineStart` of src/main.go. -/
def findLineStart (licenses : List Text) (src : Text) : Int :=
  let pkgLine := findPkgLine (splitLines src) 0
  let licenseLine :=
    if pkgLine ≠ 1 then scanLicenses licenses pkgLine (splitLines src) 0 [] else []
  let sorted := sortInts licenseLine
  match sorted.getLast? with
  | some endLicenseLine => endLicenseLine
  | none => pkgLine

/-! ## `trimSource` and the per-file rewrite -/

/-- Loop of `trimSource` (lines 181-186), entered at index `i` with the bytes
`newSrc` written so far. -/
def trimLoop (start : Int) : List Text → Nat → Text → Text
  | [], _, newSrc => newSrc
  | line :: rest, i, newSrc =>
    if (i : Int) < wrapInt (start - 1) then trimLoop start rest (i + 1) newSrc
    else trimLoop start rest (i + 1) (newSrc ++ (line ++ ['\n']))

/-- The function `trimSource` of src/main.go. -/
def trimSource (src : Text) (start : Int) : Text :=
  trimLoop start (splitLines src) 0 []

/-- Body of the file loop of `parse` (lines 164-168): the new content of a
file with content `src`, given the rendered license text. -/
def rewrite (licenses : List Text) (licenseText src : Text) : Text :=
  licenseText ++ trimSource src (findLineStart licenses src)

/-! ## Vocabulary of the specification -/

/-- Line `m` of a text, lines being numbered from 1. -/
def lineAt (src : Text) (m : Nat) : Option Text :=
  if m = 0 then none else (splitLines src)[m - 1]?

/-- Line `m` of the text exists and starts with `"package "`. -/
def IsPkgLine (src : Text) (m : Nat) : Prop :=
  ∃ l, lineAt src m = some l ∧ hasPrefix l pkgPrefix = true

/-- The first line starting with `"package "` is line `d`. -/
def FirstPkgLineAt (src : Text) (d : Nat) : Prop :=
  IsPkgLine src d ∧ ∀ j, j < d → ¬ IsPkgLine src j

/-- Line `m` of the text exists and contains a registered fragment. -/
def HasFragmentAt (licenses : List Text) (src : Text) (m : Nat) : Prop :=
  ∃ l, lineAt src m = some l ∧ ∃ f, f ∈ licenses ∧ contains l f = true

/-- Every given line followed by a newline, in order. -/
def joinLines : List Text → Text
  | [] => []
  | l :: ls => l ++ ['\n'] ++ joinLines ls

/-- The lines whose position is at least `b`, positions being counted from 1. -/
def linesFrom (b : Int) (lines : List Text) : List Text :=
  ((lines.enumFrom 1).filter (fun p => decide (b ≤ (p.1 : Int)))).map Prod.snd

/-- No line of the text starts with `"package "`. -/
def NoPkgLine (src : Text) : Prop :=
  ∀ l, l ∈ splitLines src → hasPrefix l pkgPrefix = false

/-- No line of the text contains a registered fragment. -/
def NoFragment (licenses : List Text) (src : Text) : Prop :=
  ∀ l, l ∈ splitLines src → ∀ f, f ∈ licenses → contains l f = false

/-- No line of the text after the first one contains a registered fragment. -/
def NoFragmentAfterFirst (licenses : List Text) (src : Text) : Prop :=
  ∀ l, l ∈ (splitLines src).drop 1 → ∀ f, f ∈ licenses → contains l f = false

instance (src : Text) (m : Nat) : Decidable (IsPkgLine src m) :=
  decidable_of_iff (∃ l, l ∈ lineAt src m ∧ hasPrefix l pkgPrefix = true) Iff.rfl

instance (src : Text) (d : Nat) : Decidable (FirstPkgLineAt src d) :=
  inferInstanceAs (Decidable (IsPkgLine src d ∧ ∀ j, j < d → ¬ IsPkgLine src j))

instance (licenses : List Text) (src : Text) (m : Nat) : Decidable (HasFragmentAt licenses src m) :=
  decidable_of_iff (∃ l, l ∈ lineAt src m ∧ ∃ f, f ∈ licenses ∧ contains l f = true) Iff.rfl

instance (src : Text) : Decidable (NoPkgLine src) :=
  inferInstanceAs (Decidable (∀ l, l ∈ splitLines src → hasPrefix l pkgPrefix = false))

instance (licenses : List Text) (src : Text) : Decidable (NoFragment licenses src) :=
  inferInstanceAs (Decidable (∀ l, l ∈ splitLines src → ∀ f, f ∈ licenses → contains l f = false))

instance (licenses : List Text) (src : Text) : Decidable (NoFragmentAfterFirst licenses src) :=
  inferInstanceAs
    (Decidable (∀ l, l ∈ (splitLines src).drop 1 → ∀ f, f ∈ licenses → contains l f = false))

/-! ## Facts about the library functions -/

theorem splitLines_ne_nil (s : Text) : splitLines s ≠ [] := by
  cases s with
  | nil => simp [splitLines]
  | cons c cs =>
    unfold splitLines
    split
    · simp
    · split <;> simp

/-- The pieces returned by `strings.Split(s, "\n")` are one more than the
newlines of `s`. -/
theorem splitLines_length (s : Text) : (splitLines s).length = s.count '\n' + 1 := by
  induction s with
  | nil => simp [splitLines]
  | cons c cs ih =>
    unfold splitLines
    split
    · rename_i h
      subst h
      simp [ih]
    · rename_i h
      split
      · rename_i h'
        exact absurd h' (splitLines_ne_nil cs)
      · rename_i l ls h'
        rw [h'] at ih
        rw [List.count_cons_of_ne (fun e => h e.symm)]
        simpa using ih

theorem joinLines_append (xs ys : List Text) :
    joinLines (xs ++ ys) = joinLines xs ++ joinLines ys := by
  induction xs with
  | nil => simp [joinLines]
  | cons x xs ih => simp [joinLines, ih]

/-- Writing every piece of `strings.Split(s, "\n")` back with a newline after
it gives `s` followed by one newline. -/
theorem joinLines_splitLines (s : Text) : joinLines (splitLines s) = s ++ ['\n'] := by
  induction s with
  | nil => simp [splitLines, joinLines]
  | cons c cs ih =>
    unfold splitLines
    split
    · rename_i h
      subst h
      simp [joinLines, ih]
    · split
      · rename_i h
        exact absurd h (splitLines_ne_nil cs)
      · rename_i l ls h
        rw [h] at ih
        simp only [joinLines] at ih ⊢
        simp only [List.cons_append, List.append_assoc] at ih ⊢
        rw [ih]

theorem contains_iff_infix (s sub : Text) : contains s sub = true ↔ sub <:+: s := by
  induction s with
  | nil =>
    cases sub <;> simp [contains, List.isPrefixOf]
  | cons c cs ih =>
    simp only [contains, Bool.or_eq_true, ih, List.isPrefixOf_iff_prefix]
    rw [List.infix_cons_iff]

theorem getLast?_sortInts_none (a : List Int) : (sortInts a).getLast? = none ↔ a = [] := by
  rw [List.getLast?_eq_none_iff]
  constructor
  · intro h
    have hp := (List.perm_insertionSort (fun x y : Int => x ≤ y) a).length_eq
    unfold sortInts at h
    rw [h] at hp
    exact List.length_eq_zero.mp hp.symm
  · intro h
    subst h
    rfl

theorem getLast?_sortInts_some (a : List Int) (m : Int) :
    (sortInts a).getLast? = some m ↔ m ∈ a ∧ ∀ x, x ∈ a → x ≤ m := by
  have hperm : List.Perm (sortInts a) a := List.perm_insertionSort _ a
  have hsorted : (sortInts a).Sorted (fun x y : Int => x ≤ y) := List.sorted_insertionSort _ a
  constructor
  · intro h
    obtain ⟨ys, hys⟩ := List.getLast?_eq_some_iff.mp h
    rw [hys] at hperm hsorted
    refine ⟨hperm.subset (by simp), ?_⟩
    intro x hx
    have hx' : x ∈ ys ++ [m] := hperm.symm.subset hx
    rcases List.mem_append.mp hx' with hx1 | hx1
    · have := List.pairwise_append.mp hsorted
      exact this.2.2 x hx1 m (by simp)
    · simp at hx1
      omega
  · rintro ⟨hm, hmax⟩
    cases hl : (sortInts a).getLast? with
    | none =>
      rw [getLast?_sortInts_none] at hl
      subst hl
      simp at hm
    | some m' =>
      obtain ⟨ys, hys⟩ := List.getLast?_eq_some_iff.mp hl
      rw [hys] at hperm hsorted
      have hm'a : m' ∈ a := hperm.subset (by simp)
      have h1 : m' ≤ m := hmax m' hm'a
      have hmS : m ∈ ys ++ [m'] := hperm.symm.subset hm
      have h2 : m ≤ m' := by
        rcases List.mem_append.mp hmS with hx1 | hx1
        · exact (List.pairwise_append.mp hsorted).2.2 m hx1 m' (by simp)
        · simp at hx1
          omega
      congr 1
      omega

/-! ## The loops of `findLineStart` -/

theorem findPkgLine_none (lines : List Text) (i : Nat)
    (h : ∀ l, l ∈ lines → hasPrefix l pkgPrefix = false) : findPkgLine lines i = 0 := by
  induction lines generalizing i with
  | nil => rfl
  | cons l ls ih =>
    have hl := h l (by simp)
    simp only [findPkgLine, hl]
    exact ih (i + 1) (fun x hx => h x (by simp [hx]))

theorem findPkgLine_nonneg (lines : List Text) (i : Nat) : 0 ≤ findPkgLine lines i := by
  induction lines generalizing i with
  | nil => simp [findPkgLine]
  | cons l ls ih =>
    simp only [findPkgLine]
    split
    · omega
    · exact ih (i + 1)

theorem mem_appendMatches (line : Text) (n : Nat) (lic : List Text) (acc : List Int) (x : Int) :
    x ∈ appendMatches line n lic acc ↔
      x ∈ acc ∨ (x = (n : Int) + 1 ∧ ∃ f, f ∈ lic ∧ contains line f = true) := by
  induction lic generalizing acc with
  | nil => simp [appendMatches]
  | cons f fs ih =>
    simp only [appendMatches]
    split
    · rename_i hf
      rw [ih]
      simp only [List.mem_append, List.mem_cons, List.not_mem_nil, or_false]
      constructor
      · rintro ((h | h) | ⟨h, g, hg, hc⟩)
        · exact Or.inl h
        · exact Or.inr ⟨h, f, Or.inl rfl, hf⟩
        · exact Or.inr ⟨h, g, Or.inr hg, hc⟩
      · rintro (h | ⟨h, g, hg | hg, hc⟩)
        · exact Or.inl (Or.inl h)
        · exact Or.inl (Or.inr h)
        · exact Or.inr ⟨h, g, hg, hc⟩
    · rename_i hf
      rw [ih]
      simp only [List.mem_cons]
      constructor
      · rintro (h | ⟨h, g, hg, hc⟩)
        · exact Or.inl h
        · exact Or.inr ⟨h, g, Or.inr hg, hc⟩
      · rintro (h | ⟨h, g, hg | hg, hc⟩)
        · exact Or.inl h
        · subst hg
          exact absurd hc hf
        · exact Or.inr ⟨h, g, hg, hc⟩

theorem mem_scanLicenses (lic : List Text) (p : Int) (lines : List Text) (i : Nat)
    (acc : List Int) (x : Int) :
    x ∈ scanLicenses lic p lines i acc ↔
      x ∈ acc ∨ ∃ k l, lines[k]? = some l ∧ (∀ j, j ≤ k → ((i + j : Nat) : Int) ≠ p - 1) ∧
        (∃ f, f ∈ lic ∧ contains l f = true) ∧ x = ((i + k : Nat) : Int) + 1 := by
  induction lines generalizing i acc with
  | nil => simp [scanLicenses]
  | cons l ls ih =>
    simp only [scanLicenses]
    split
    · rename_i hi
      constructor
      · exact Or.inl
      · rintro (h | ⟨k, l', _, hj, _⟩)
        · exact h
        · exact absurd hi (by simpa using hj 0 (Nat.zero_le k))
    · rename_i hi
      rw [ih, mem_appendMatches]
      constructor
      · rintro ((h | ⟨hx, hf⟩) | ⟨k, l', hk, hj, hf, hx⟩)
        · exact Or.inl h
        · refine Or.inr ⟨0, l, by simp, ?_, hf, by simpa using hx⟩
          intro j hj0
          have : j = 0 := by omega
          subst this
          simpa using hi
        · refine Or.inr ⟨k + 1, l', by simpa using hk, ?_, hf, ?_⟩
          · intro j hjk
            cases j with
            | zero => simpa using hi
            | succ j' =>
              have := hj j' (by omega)
              have e : i + 1 + j' = i + (j' + 1) := by omega
              rwa [e] at this
          · rw [hx]
            congr 2
            omega
      · rintro (h | ⟨k, l', hk, hj, hf, hx⟩)
        · exact Or.inl (Or.inl h)
        · cases k with
          | zero =>
            simp only [List.getElem?_cons_zero, Option.some.injEq] at hk
            subst hk
            exact Or.inl (Or.inr ⟨by simpa using hx, hf⟩)
          | succ k' =>
            refine Or.inr ⟨k', l', by simpa using hk, ?_, hf, ?_⟩
            · intro j hjk
              have := hj (j + 1) (by omega)
              have e : i + (j + 1) = i + 1 + j := by omega
              rwa [e] at this
            · rw [hx]
              congr 2
              omega

theorem findPkgLine_at (lines : List Text) (i k : Nat) (l : Text)
    (hk : lines[k]? = some l) (hl : hasPrefix l pkgPrefix = true)
    (hpre : ∀ j l', j < k → lines[j]? = some l' → hasPrefix l' pkgPrefix = false) :
    findPkgLine lines i = ((i + k : Nat) : Int) + 1 := by
  induction lines generalizing i k with
  | nil => simp at hk
  | cons x xs ih =>
    cases k with
    | zero =>
      simp only [List.getElem?_cons_zero, Option.some.injEq] at hk
      subst hk
      simp [findPkgLine, hl]
    | succ k' =>
      have hx : hasPrefix x pkgPrefix = false := hpre 0 x (by omega) (by simp)
      simp only [findPkgLine, hx]
      have := ih (i + 1) k' (by simpa using hk)
        (fun j l' hj hj' => hpre (j + 1) l' (by omega) (by simpa using hj'))
      simp only [Bool.false_eq_true, if_false]
      rw [this]
      congr 2
      omega

theorem lineAt_eq_some (src : Text) (m : Nat) (l : Text) :
    lineAt src m = some l ↔ 1 ≤ m ∧ (splitLines src)[m - 1]? = some l := by
  unfold lineAt
  split
  · rename_i h
    subst h
    simp
  · rename_i h
    constructor
    · intro h'
      exact ⟨by omega, h'⟩
    · exact fun h' => h'.2

/-- When line `d` is the first line starting with `"package "`, the first loop
leaves `pkgLine = d`. -/
theorem findPkgLine_of_first (src : Text) (d : Nat) (h : FirstPkgLineAt src d) :
    findPkgLine (splitLines src) 0 = (d : Int) ∧ 1 ≤ d ∧ d ≤ (splitLines src).length := by
  obtain ⟨⟨l, hl, hp⟩, hfirst⟩ := h
  rw [lineAt_eq_some] at hl
  obtain ⟨hd, hl⟩ := hl
  have hlen : d - 1 < (splitLines src).length := by
    by_contra hc
    rw [List.getElem?_eq_none (by omega)] at hl
    simp at hl
  refine ⟨?_, hd, by omega⟩
  rw [findPkgLine_at (splitLines src) 0 (d - 1) l hl hp]
  · have : ((0 + (d - 1) : Nat) : Int) = (d : Int) - 1 := by omega
    rw [this]
    omega
  · intro j l' hj hj'
    by_contra hc
    have hc' : hasPrefix l' pkgPrefix = true := by simpa using hc
    exact hfirst (j + 1) (by omega) ⟨l', (lineAt_eq_some src (j + 1) l').mpr ⟨by omega, by simpa using hj'⟩, hc'⟩

/-- The line numbers collected by the second loop: the lines containing a
registered fragment that lie before the declaration line, or anywhere in the
text when `pkgLine` is `0`. -/
theorem mem_licenseLine (lic : List Text) (src : Text) (x : Int) :
    x ∈ (if findPkgLine (splitLines src) 0 ≠ 1
          then scanLicenses lic (findPkgLine (splitLines src) 0) (splitLines src) 0 []
          else []) ↔
      ∃ m : Nat, x = (m : Int) ∧ HasFragmentAt lic src m ∧
        (findPkgLine (splitLines src) 0 = 0 ∨ (m : Int) < findPkgLine (splitLines src) 0) := by
  have hp0 := findPkgLine_nonneg (splitLines src) 0
  generalize findPkgLine (splitLines src) 0 = p at hp0 ⊢
  split
  · rename_i hp1
    rw [mem_scanLicenses]
    simp only [List.not_mem_nil, false_or, Nat.zero_add]
    constructor
    · rintro ⟨k, l, hk, hj, hf, hx⟩
      refine ⟨k + 1, by simpa using hx, ⟨l, (lineAt_eq_some src (k + 1) l).mpr ⟨by omega, by simpa using hk⟩, hf⟩, ?_⟩
      by_cases h0 : p = 0
      · exact Or.inl h0
      · right
        by_contra hc
        have hlt : (p - 1).toNat ≤ k := by omega
        have := hj (p - 1).toNat hlt
        omega
    · rintro ⟨m, hx, ⟨l, hl, hf⟩, hm⟩
      rw [lineAt_eq_some] at hl
      refine ⟨m - 1, l, hl.2, ?_, hf, ?_⟩
      · intro j hj
        omega
      · rw [hx]
        omega
  · rename_i hp1
    have hp1' : p = 1 := by
      by_contra hc
      exact hp1 hc
    subst hp1'
    simp only [List.not_mem_nil, false_iff]
    rintro ⟨m, _, ⟨l, hl, _⟩, hm⟩
    rw [lineAt_eq_some] at hl
    omega

/-- The result of `findLineStart`: the value of `pkgLine` when the second loop
collected nothing, and the largest collected line number otherwise. -/
theorem findLineStart_cases (lic : List Text) (src : Text) :
    (findLineStart lic src = findPkgLine (splitLines src) 0 ∧
      ∀ m, HasFragmentAt lic src m →
        ¬ (findPkgLine (splitLines src) 0 = 0 ∨ (m : Int) < findPkgLine (splitLines src) 0)) ∨
    (∃ m : Nat, findLineStart lic src = (m : Int) ∧ HasFragmentAt lic src m ∧
      (findPkgLine (splitLines src) 0 = 0 ∨ (m : Int) < findPkgLine (splitLines src) 0) ∧
      ∀ k, HasFragmentAt lic src k →
        (findPkgLine (splitLines src) 0 = 0 ∨ (k : Int) < findPkgLine (splitLines src) 0) →
        k ≤ m) := by
  have hmem := mem_licenseLine lic src
  unfold findLineStart
  simp only []
  generalize (if findPkgLine (splitLines src) 0 ≠ 1
          then scanLicenses lic (findPkgLine (splitLines src) 0) (splitLines src) 0 []
          else []) = L at hmem ⊢
  cases hlast : (sortInts L).getLast? with
  | none =>
    left
    rw [getLast?_sortInts_none] at hlast
    subst hlast
    refine ⟨rfl, ?_⟩
    intro m hm hc
    have := (hmem m).mpr ⟨m, rfl, hm, hc⟩
    simp at this
  | some e =>
    right
    rw [getLast?_sortInts_some] at hlast
    obtain ⟨he, hmax⟩ := hlast
    obtain ⟨m, hem, hm, hc⟩ := (hmem e).mp he
    refine ⟨m, hem, hm, hc, ?_⟩
    intro k hk hkc
    have := hmax k ((hmem k).mpr ⟨k, rfl, hk, hkc⟩)
    omega

/-! ## The loop of `trimSource` -/

theorem wrapInt_of_inRange (x : Int) (h1 : minInt ≤ x) (h2 : x ≤ maxInt) : wrapInt x = x := by
  simp only [wrapInt, minInt, maxInt, intBits] at *
  norm_num at *
  omega

theorem wrapInt_le_self (x : Int) (h : 0 ≤ x) : wrapInt x ≤ x := by
  simp only [wrapInt, intBits]
  norm_num
  omega

/-- The loop writes the accumulated bytes followed by every line whose index
is not below the threshold `wrapInt (start - 1)`. -/
theorem trimLoop_eq_drop (start : Int) (lines : List Text) (i : Nat) (acc : Text) :
    trimLoop start lines i acc =
      acc ++ joinLines (lines.drop (wrapInt (start - 1) - (i : Int)).toNat) := by
  induction lines generalizing i acc with
  | nil => simp [trimLoop, joinLines]
  | cons l ls ih =>
    simp only [trimLoop]
    split
    · rename_i h
      rw [ih]
      have e : (wrapInt (start - 1) - (i : Int)).toNat
          = (wrapInt (start - 1) - ((i + 1 : Nat) : Int)).toNat + 1 := by omega
      rw [e, List.drop_succ_cons]
    · rename_i h
      rw [ih]
      have e : (wrapInt (start - 1) - (i : Int)).toNat = 0 := by omega
      have e' : (wrapInt (start - 1) - ((i + 1 : Nat) : Int)).toNat = 0 := by omega
      rw [e, e']
      simp [joinLines]

theorem trimSource_eq_drop (src : Text) (start : Int) :
    trimSource src start = joinLines ((splitLines src).drop (wrapInt (start - 1)).toNat) := by
  unfold trimSource
  rw [trimLoop_eq_drop]
  simp

theorem enumFrom_filter_eq_drop (b : Int) (lines : List Text) (k : Nat) :
    ((lines.enumFrom k).filter (fun p => decide (b ≤ (p.1 : Int)))).map Prod.snd
      = lines.drop (b - (k : Int)).toNat := by
  induction lines generalizing k with
  | nil => simp
  | cons l ls ih =>
    simp only [List.enumFrom_cons]
    by_cases h : b ≤ (k : Int)
    · have e : (b - (k : Int)).toNat = 0 := by omega
      have e' : (b - ((k + 1 : Nat) : Int)).toNat = 0 := by omega
      have := ih (k + 1)
      rw [e'] at this
      rw [e, List.filter_cons_of_pos (by simpa using h)]
      simp only [List.map_cons, List.drop_zero]
      rw [this]
      simp
    · have e : (b - (k : Int)).toNat = (b - ((k + 1 : Nat) : Int)).toNat + 1 := by omega
      rw [e, List.filter_cons_of_neg (by simpa using h), ih (k + 1), List.drop_succ_cons]

theorem linesFrom_eq_drop (b : Int) (lines : List Text) :
    linesFrom b lines = lines.drop (b - 1).toNat := by
  unfold linesFrom
  rw [enumFrom_filter_eq_drop]
  rfl

/-! ## Bridges between the vocabulary and the loops -/

theorem lineAt_le_length (src : Text) (m : Nat) (l : Text) (h : lineAt src m = some l) :
    1 ≤ m ∧ m ≤ (splitLines src).length := by
  rw [lineAt_eq_some] at h
  refine ⟨h.1, ?_⟩
  by_contra hc
  rw [List.getElem?_eq_none (by omega)] at h
  simp at h

theorem noPkgLine_iff (src : Text) : NoPkgLine src ↔ ∀ m, ¬ IsPkgLine src m := by
  constructor
  · rintro h m ⟨l, hl, hp⟩
    rw [lineAt_eq_some] at hl
    have := h l (List.mem_iff_getElem?.mpr ⟨m - 1, hl.2⟩)
    rw [this] at hp
    exact absurd hp (by simp)
  · intro h l hl
    obtain ⟨n, hn⟩ := List.mem_iff_getElem?.mp hl
    by_contra hc
    have hc' : hasPrefix l pkgPrefix = true := by simpa using hc
    exact h (n + 1) ⟨l, (lineAt_eq_some src (n + 1) l).mpr ⟨by omega, by simpa using hn⟩, hc'⟩

theorem noFragment_iff (lic : List Text) (src : Text) :
    NoFragment lic src ↔ ∀ m, ¬ HasFragmentAt lic src m := by
  constructor
  · rintro h m ⟨l, hl, f, hf, hc⟩
    rw [lineAt_eq_some] at hl
    have := h l (List.mem_iff_getElem?.mpr ⟨m - 1, hl.2⟩) f hf
    rw [this] at hc
    exact absurd hc (by simp)
  · intro h l hl f hf
    obtain ⟨n, hn⟩ := List.mem_iff_getElem?.mp hl
    by_contra hc
    have hc' : contains l f = true := by simpa using hc
    exact h (n + 1) ⟨l, (lineAt_eq_some src (n + 1) l).mpr ⟨by omega, by simpa using hn⟩, f, hf, hc'⟩

theorem exists_firstPkgLine (src : Text) (h : ∃ m, IsPkgLine src m) :
    ∃ d, FirstPkgLineAt src d :=
  ⟨Nat.find h, Nat.find_spec h, fun _ hj => Nat.find_min h hj⟩

/-- With the declaration first found on line `d`, the result is `d` when no
earlier line contains a fragment, and the last such line otherwise. -/
theorem findLineStart_of_first (lic : List Text) (src : Text) (d : Nat)
    (hfirst : FirstPkgLineAt src d) :
    (findLineStart lic src = (d : Int) ∧ ∀ m, m < d → ¬ HasFragmentAt lic src m) ∨
    (∃ m : Nat, findLineStart lic src = (m : Int) ∧ 1 ≤ m ∧ m < d ∧ HasFragmentAt lic src m ∧
      ∀ k, k < d → HasFragmentAt lic src k → k ≤ m) := by
  obtain ⟨hp, hd1, _⟩ := findPkgLine_of_first src d hfirst
  rcases findLineStart_cases lic src with ⟨h1, h2⟩ | ⟨m, h1, h2, h3, h4⟩
  · left
    rw [hp] at h1 h2
    refine ⟨h1, ?_⟩
    intro m hm hf
    exact h2 m hf (Or.inr (by omega))
  · right
    rw [hp] at h3 h4
    obtain ⟨l, hl, _⟩ := h2
    have hm1 := (lineAt_le_length src m l hl).1
    refine ⟨m, h1, hm1, by omega, ⟨l, hl, by assumption⟩, ?_⟩
    intro k hk hf
    exact h4 k hf (Or.inr (by omega))

/-- With no declaration line, the result is `0` when no line contains a
fragment, and the last line containing one otherwise. -/
theorem findLineStart_of_noPkgLine (lic : List Text) (src : Text) (hno : NoPkgLine src) :
    (findLineStart lic src = 0 ∧ NoFragment lic src) ∨
    (∃ m : Nat, findLineStart lic src = (m : Int) ∧ 1 ≤ m ∧ HasFragmentAt lic src m ∧
      ∀ k, HasFragmentAt lic src k → k ≤ m) := by
  have hp := findPkgLine_none (splitLines src) 0 hno
  rcases findLineStart_cases lic src with ⟨h1, h2⟩ | ⟨m, h1, h2, h3, h4⟩
  · left
    rw [hp] at h1 h2
    refine ⟨h1, (noFragment_iff lic src).mpr ?_⟩
    intro m hf
    exact h2 m hf (Or.inl rfl)
  · right
    rw [hp] at h4
    obtain ⟨l, hl, hf⟩ := h2
    exact ⟨m, h1, (lineAt_le_length src m l hl).1, ⟨l, hl, hf⟩, fun k hk => h4 k hk (Or.inl rfl)⟩

theorem firstPkgLineAt_one (src : Text) (h : IsPkgLine src 1) : FirstPkgLineAt src 1 := by
  refine ⟨h, ?_⟩
  intro j hj
  have : j = 0 := by omega
  subst this
  rintro ⟨l, hl, _⟩
  simp [lineAt] at hl

theorem hasFragmentAt_congr (lic : List Text) (src src' : Text) (d m : Nat) (hm : m ≤ d)
    (h : (splitLines src').take d = (splitLines src).take d) :
    HasFragmentAt lic src' m ↔ HasFragmentAt lic src m := by
  have key : lineAt src' m = lineAt src m := by
    unfold lineAt
    split
    · rfl
    · have e1 : (splitLines src')[m - 1]? = ((splitLines src').take d)[m - 1]? := by
        rw [List.getElem?_take_of_lt (by omega)]
      have e2 : (splitLines src)[m - 1]? = ((splitLines src).take d)[m - 1]? := by
        rw [List.getElem?_take_of_lt (by omega)]
      rw [e1, e2, h]
  unfold HasFragmentAt
  rw [key]

theorem isPkgLine_congr (src src' : Text) (d m : Nat) (hm : m ≤ d)
    (h : (splitLines src').take d = (splitLines src).take d) :
    IsPkgLine src' m ↔ IsPkgLine src m := by
  have key : lineAt src' m = lineAt src m := by
    unfold lineAt
    split
    · rfl
    · have e1 : (splitLines src')[m - 1]? = ((splitLines src').take d)[m - 1]? := by
        rw [List.getElem?_take_of_lt (by omega)]
      have e2 : (splitLines src)[m - 1]? = ((splitLines src).take d)[m - 1]? := by
        rw [List.getElem?_take_of_lt (by omega)]
      rw [e1, e2, h]
  unfold IsPkgLine
  rw [key]

/-- The result of `findLineStart` depends only on the lines up to and
including the declaration line. -/
theorem findLineStart_congr (lic : List Text) (src src' : Text) (d : Nat)
    (hfirst : FirstPkgLineAt src d)
    (h : (splitLines src').take d = (splitLines src).take d) :
    findLineStart lic src' = findLineStart lic src := by
  have hfirst' : FirstPkgLineAt src' d :=
    ⟨(isPkgLine_congr src src' d d (le_refl d) h).mpr hfirst.1,
     fun j hj hc => hfirst.2 j hj ((isPkgLine_congr src src' d j (by omega) h).mp hc)⟩
  rcases findLineStart_of_first lic src d hfirst with ⟨a1, a2⟩ | ⟨m, a1, _, a3, a4, a5⟩ <;>
  rcases findLineStart_of_first lic src' d hfirst' with ⟨b1, b2⟩ | ⟨m', b1, _, b3, b4, b5⟩
  · rw [a1, b1]
  · exact absurd ((hasFragmentAt_congr lic src src' d m' (by omega) h).mp b4) (a2 m' b3)
  · exact absurd ((hasFragmentAt_congr lic src src' d m (by omega) h).mpr a4) (b2 m a3)
  · have h1 := a5 m' b3 ((hasFragmentAt_congr lic src src' d m' (by omega) h).mp b4)
    have h2 := b5 m a3 ((hasFragmentAt_congr lic src src' d m (by omega) h).mpr a4)
    rw [a1, b1]
    congr 1
    omega

/-- The lines from `d` on are a tail of the lines from any earlier position. -/
theorem joinLines_drop_suffix (lines : List Text) (t d : Nat) (h : t ≤ d) :
    ∃ pre, joinLines (lines.drop t) = pre ++ joinLines (lines.drop d) := by
  refine ⟨joinLines ((lines.drop t).take (d - t)), ?_⟩
  rw [← joinLines_append]
  have e : lines.drop d = (lines.drop t).drop (d - t) := by
    rw [List.drop_drop]
    congr 1
    omega
  rw [e, List.take_append_drop]

/-- With the declaration first found on line `d`, the result lies between 1
and `d`. -/
theorem findLineStart_range_of_first (lic : List Text) (src : Text) (d : Nat)
    (hfirst : FirstPkgLineAt src d) :
    1 ≤ findLineStart lic src ∧ findLineStart lic src ≤ (d : Int) := by
  obtain ⟨_, hd1, _⟩ := findPkgLine_of_first src d hfirst
  rcases findLineStart_of_first lic src d hfirst with ⟨h1, _⟩ | ⟨m, h1, hm1, hmd, _, _⟩
  · rw [h1]
    omega
  · rw [h1]
    omega

/-- With the declaration first found on line `d`, the bytes kept by
`trimSource` end with the lines from `d` on. -/
theorem trimSource_keeps_from_decl (lic : List Text) (src : Text) (d : Nat)
    (hfirst : FirstPkgLineAt src d) :
    ∃ pre, trimSource src (findLineStart lic src)
      = pre ++ joinLines ((splitLines src).drop (d - 1)) := by
  have hrange := findLineStart_range_of_first lic src d hfirst
  rw [trimSource_eq_drop]
  apply joinLines_drop_suffix
  have := wrapInt_le_self (findLineStart lic src - 1) (by omega)
  omega

/-- The last line matched before the declaration is the first line kept by
the rewrite: it is not removed with the rest of the old header. -/
theorem last_license_line_kept (lic : List Text) (src : Text) (d m : Nat) (l : Text)
    (hfirst : FirstPkgLineAt src d) (hm : m < d) (hl : lineAt src m = some l)
    (hfrag : ∃ f, f ∈ lic ∧ contains l f = true)
    (hlast : ∀ k, k < d → HasFragmentAt lic src k → k ≤ m) :
    findLineStart lic src = (m : Int) ∧
    ∃ pre post, trimSource src (findLineStart lic src) = pre ++ (l ++ ['\n']) ++ post := by
  have hval : findLineStart lic src = (m : Int) := by
    rcases findLineStart_of_first lic src d hfirst with ⟨_, h2⟩ | ⟨m', h1, _, h3, h4, h5⟩
    · exact absurd ⟨l, hl, hfrag⟩ (h2 m hm)
    · have a := hlast m' h3 h4
      have b := h5 m hm ⟨l, hl, hfrag⟩
      rw [h1]
      congr 1
      omega
  refine ⟨hval, ?_⟩
  obtain ⟨hm1, hmn⟩ := lineAt_le_length src m l hl
  rw [lineAt_eq_some] at hl
  rw [trimSource_eq_drop, hval]
  have hle : (wrapInt ((m : Int) - 1)).toNat ≤ m - 1 := by
    have := wrapInt_le_self ((m : Int) - 1) (by omega)
    omega
  obtain ⟨pre, hpre⟩ := joinLines_drop_suffix (splitLines src) _ (m - 1) hle
  have hdrop : (splitLines src).drop (m - 1) = l :: (splitLines src).drop (m - 1 + 1) := by
    have hlt : m - 1 < (splitLines src).length := by omega
    rw [List.getElem?_eq_getElem hlt] at hl
    have := List.drop_eq_getElem_cons hlt
    rw [this]
    congr 1
    exact Option.some.inj hl.2
  rw [hpre, hdrop]
  exact ⟨pre, joinLines ((splitLines src).drop (m - 1 + 1)), by simp [joinLines]⟩

theorem all_eq_of_cons_append_eq {α : Type} (a : α) (t h pre : List α)
    (e : a :: (t ++ h) = t ++ pre) : ∀ x, x ∈ t → x = a := by
  induction t with
  | nil => simp
  | cons y ys ih =>
    simp only [List.cons_append, List.cons.injEq] at e
    obtain ⟨hay, e'⟩ := e
    subst hay
    intro x hx
    rcases List.mem_cons.mp hx with hx | hx
    · exact hx
    · exact ih e' x hx

/-- A file with a declaration is changed by every further run: the output of
a second run with the same header never equals the output of the first. -/
theorem rewrite_changes_again (lic : List Text) (h src : Text)
    (hpkg : ∃ m, IsPkgLine src m) :
    rewrite lic h (rewrite lic h src) ≠ rewrite lic h src := by
  obtain ⟨d, hfirst⟩ := exists_firstPkgLine src hpkg
  obtain ⟨pre, hpre⟩ := trimSource_keeps_from_decl lic src d hfirst
  -- the kept bytes contain the letter p of the declaration
  have hp : 'p' ∈ trimSource src (findLineStart lic src) := by
    obtain ⟨⟨l, hl, hpref⟩, _⟩ := hfirst
    obtain ⟨hd1, hdn⟩ := lineAt_le_length src d l hl
    rw [lineAt_eq_some] at hl
    have hlt : d - 1 < (splitLines src).length := by omega
    have hdrop : (splitLines src).drop (d - 1) = l :: (splitLines src).drop (d - 1 + 1) := by
      rw [List.getElem?_eq_getElem hlt] at hl
      rw [List.drop_eq_getElem_cons hlt]
      congr 1
      exact Option.some.inj hl.2
    have hpl : 'p' ∈ l := by
      unfold hasPrefix at hpref
      obtain ⟨r, hr⟩ := List.isPrefixOf_iff_prefix.mp hpref
      rw [← hr]
      simp [pkgPrefix]
    rw [hpre, hdrop]
    simp [joinLines, hpl]
  intro hidem
  unfold rewrite at hidem
  have e1 := List.append_cancel_left hidem
  rw [trimSource_eq_drop] at e1
  generalize trimSource src (findLineStart lic src) = t at hp e1
  obtain ⟨pre', hpre'⟩ := joinLines_drop_suffix (splitLines (h ++ t)) 0
    (wrapInt (findLineStart lic (h ++ t) - 1)).toNat (Nat.zero_le _)
  rw [List.drop_zero, joinLines_splitLines, e1] at hpre'
  have e2 := congrArg List.reverse hpre'
  simp only [List.reverse_append, List.reverse_cons, List.reverse_nil, List.nil_append,
    List.singleton_append] at e2
  have hall := all_eq_of_cons_append_eq '\n' t.reverse h.reverse pre'.reverse e2 'p'
    (List.mem_reverse.mpr hp)
  exact absurd hall (by decide)

theorem noFragmentAfterFirst_iff (lic : List Text) (src : Text) :
    NoFragmentAfterFirst lic src ↔ ∀ m, 2 ≤ m → ¬ HasFragmentAt lic src m := by
  constructor
  · rintro h m hm ⟨l, hl, f, hf, hc⟩
    rw [lineAt_eq_some] at hl
    have hmem : l ∈ (splitLines src).drop 1 := by
      apply List.mem_iff_getElem?.mpr
      refine ⟨m - 2, ?_⟩
      rw [List.getElem?_drop]
      have e : 1 + (m - 2) = m - 1 := by omega
      rw [e]
      exact hl.2
    have := h l hmem f hf
    rw [this] at hc
    exact absurd hc (by simp)
  · intro h l hl f hf
    obtain ⟨n, hn⟩ := List.mem_iff_getElem?.mp hl
    rw [List.getElem?_drop] at hn
    by_contra hc
    have hc' : contains l f = true := by simpa using hc
    refine h (n + 2) (by omega) ⟨l, (lineAt_eq_some src (n + 2) l).mpr ⟨by omega, ?_⟩, f, hf, hc'⟩
    have e : n + 2 - 1 = 1 + n := by omega
    rw [e]
    exact hn

/-- When line 1 starts with `"package "`, the result is 1 and `trimSource`
writes the whole text followed by one more newline. -/
theorem trimSource_of_decl_on_line_one (lic : List Text) (src : Text)
    (hpkg : IsPkgLine src 1) :
    findLineStart lic src = 1 ∧ trimSource src 1 = src ++ ['\n'] := by
  constructor
  · rcases findLineStart_of_first lic src 1 (firstPkgLineAt_one src hpkg) with
      ⟨h1, _⟩ | ⟨m, _, hm1, hm2, _, _⟩
    · simpa using h1
    · omega
  · rw [trimSource_eq_drop]
    have e : (wrapInt (1 - 1)).toNat = 0 := by decide
    rw [e, List.drop_zero, joinLines_splitLines]

end Spdxer

/-! ## The claims -/

open Spdxer

set_option maxRecDepth 100000

/-- C1 (largest-match rule): when the first line starting with "package " is
line d ≥ 2 and some line before d contains a registered fragment, findLineStart
returns the largest line number m < d whose line contains a registered
fragment. -/
theorem c1_largest_match (licenses : List Text) (src : Text) (d : Nat)
    (_hd : 2 ≤ d) (hfirst : FirstPkgLineAt src d)
    (hmatch : ∃ m, 1 ≤ m ∧ m < d ∧ HasFragmentAt licenses src m) :
    ∃ m : Nat, findLineStart licenses src = (m : Int) ∧ 1 ≤ m ∧ m < d ∧
      HasFragmentAt licenses src m ∧
      ∀ k, k < d → HasFragmentAt licenses src k → k ≤ m := by
  rcases findLineStart_of_first licenses src d hfirst with ⟨_, h2⟩ | h
  · obtain ⟨m, _, hm, hf⟩ := hmatch
    exact absurd hf (h2 m hm)
  · exact h

/-- Witness for C1: two fragments, three matching lines before the declaration
on line 5 and one after it; the hypotheses hold and the result is line 4. -/
theorem c1_largest_match_witness :
    ∃ m : Nat,
      findLineStart ["LICENSE".toList, "Copyright".toList]
        "// LICENSE\n// Copyright LICENSE\n\n// Copyright\npackage main\n// LICENSE".toList
          = (m : Int) ∧ 1 ≤ m ∧ m < 5 ∧
      HasFragmentAt ["LICENSE".toList, "Copyright".toList]
        "// LICENSE\n// Copyright LICENSE\n\n// Copyright\npackage main\n// LICENSE".toList m ∧
      ∀ k, k < 5 → HasFragmentAt ["LICENSE".toList, "Copyright".toList]
        "// LICENSE\n// Copyright LICENSE\n\n// Copyright\npackage main\n// LICENSE".toList k →
        k ≤ m :=
  c1_largest_match ["LICENSE".toList, "Copyright".toList]
    "// LICENSE\n// Copyright LICENSE\n\n// Copyright\npackage main\n// LICENSE".toList 5
    (by decide) (by decide) ⟨1, by decide, by decide, by decide⟩

/-- C2 (default to the declaration line): when the first line starting with
"package " is line d and no line strictly before it contains a registered
fragment, findLineStart returns d; for d = 1 nothing precedes the declaration,
so the result is 1 whatever the later lines contain. -/
theorem c2_default_decl_line (licenses : List Text) (src : Text) (d : Nat)
    (hfirst : FirstPkgLineAt src d)
    (hnone : ∀ m, m < d → ¬ HasFragmentAt licenses src m) :
    findLineStart licenses src = (d : Int) := by
  rcases findLineStart_of_first licenses src d hfirst with ⟨h1, _⟩ | ⟨m, _, _, hm, hf, _⟩
  · exact h1
  · exact absurd hf (hnone m hm)

/-- Witness for C2: the declaration is on line 1, later lines contain a
fragment and a second declaration, and the result is 1. -/
theorem c2_default_decl_line_witness :
    findLineStart ["LICENSE".toList] "package main\n// LICENSE\npackage other".toList
      = ((1 : Nat) : Int) :=
  c2_default_decl_line ["LICENSE".toList] "package main\n// LICENSE\npackage other".toList 1
    (by decide) (by decide)

/-- C3 (amended): for every header, every source text and every boundary b in
the range of int other than the smallest int, header ++ trimSource(src, b) is
the header followed by line ++ "\n" for exactly the lines of src whose
1-indexed position is at least b (b may be 0, negative or past the last line). -/
theorem c3_header_writer (header src : Text) (b : Int)
    (hmin : minInt < b) (hmax : b ≤ maxInt) :
    header ++ trimSource src b = header ++ joinLines (linesFrom b (splitLines src)) := by
  rw [trimSource_eq_drop, linesFrom_eq_drop,
    wrapInt_of_inRange (b - 1) (by omega) (by omega)]

/-- Witness for C3 (amended): boundary 0 keeps every line. -/
theorem c3_header_writer_witness :
    "// H\n".toList ++ trimSource "a\nb".toList 0
      = "// H\n".toList ++ joinLines (linesFrom 0 (splitLines "a\nb".toList)) :=
  c3_header_writer "// H\n".toList "a\nb".toList 0 (by decide) (by decide)

/-- C3 as stated fails at the smallest int: start-1 wraps around to the largest
int, every line is skipped and only the header is written, although every line
has a position at least b. -/
theorem c3_counterexample :
    minInt = -9223372036854775808 ∧
    "// H\n".toList ++ trimSource "a\nb".toList minInt = "// H\n".toList ∧
    "// H\n".toList ++ joinLines (linesFrom minInt (splitLines "a\nb".toList))
      = "// H\na\nb\n".toList ∧
    "// H\n".toList ++ trimSource "a\nb".toList minInt
      ≠ "// H\n".toList ++ joinLines (linesFrom minInt (splitLines "a\nb".toList)) := by
  decide

/-- C4 (amended): for every text and registry the result b of findLineStart
satisfies 0 ≤ b ≤ n + 1, n being the number of lines, and 1 ≤ b holds exactly
when some line starts with "package " or some line contains a registered
fragment. -/
theorem c4_boundary_range (licenses : List Text) (src : Text) :
    0 ≤ findLineStart licenses src ∧
    findLineStart licenses src ≤ ((splitLines src).length : Int) + 1 ∧
    (1 ≤ findLineStart licenses src ↔
      (∃ m, IsPkgLine src m) ∨ ∃ m, HasFragmentAt licenses src m) := by
  by_cases hp : ∃ m, IsPkgLine src m
  · obtain ⟨d, hfirst⟩ := exists_firstPkgLine src hp
    obtain ⟨_, hd1, hdn⟩ := findPkgLine_of_first src d hfirst
    rcases findLineStart_of_first licenses src d hfirst with ⟨h1, _⟩ | ⟨m, h1, hm1, hmd, _, _⟩
    · rw [h1]
      refine ⟨by omega, by omega, ?_⟩
      constructor
      · exact fun _ => Or.inl hp
      · intro _
        omega
    · rw [h1]
      refine ⟨by omega, by omega, ?_⟩
      constructor
      · exact fun _ => Or.inl hp
      · intro _
        omega
  · have hno : NoPkgLine src := (noPkgLine_iff src).mpr (fun m hm => hp ⟨m, hm⟩)
    rcases findLineStart_of_noPkgLine licenses src hno with ⟨h1, h2⟩ | ⟨m, h1, hm1, hf, _⟩
    · rw [h1]
      refine ⟨by omega, by omega, ?_⟩
      constructor
      · intro h
        omega
      · rintro (h | ⟨m, hm⟩)
        · exact absurd h hp
        · exact absurd hm ((noFragment_iff licenses src).mp h2 m)
    · rw [h1]
      obtain ⟨l, hl, hf'⟩ := hf
      have := (lineAt_le_length src m l hl).2
      refine ⟨by omega, by omega, ?_⟩
      constructor
      · exact fun _ => Or.inr ⟨m, l, hl, hf'⟩
      · intro _
        omega

/-- C4 as stated fails on the empty text: there is one (empty) line, no
declaration and no fragment, and findLineStart returns 0. -/
theorem c4_counterexample :
    findLineStart ["LICENSE".toList] [] = 0 ∧
    ¬ (1 ≤ findLineStart ["LICENSE".toList] [] ∧
       findLineStart ["LICENSE".toList] [] ≤ ((splitLines []).length : Int) + 1) := by
  decide

/-- C5 (evaluation at a failing input): with the fragment
"SPDX-License-Identifier" registered and a one-line header carrying it, the
first run on "package main\n" writes the header, the declaration and an empty
line; the second run keeps the old header below the new one and appends a
further newline, so the two outputs differ. -/
theorem c5_second_run_differs :
    rewrite ["SPDX-License-Identifier".toList] "// SPDX-License-Identifier: MIT\n".toList
        "package main\n".toList
      = "// SPDX-License-Identifier: MIT\npackage main\n\n".toList ∧
    rewrite ["SPDX-License-Identifier".toList] "// SPDX-License-Identifier: MIT\n".toList
        (rewrite ["SPDX-License-Identifier".toList] "// SPDX-License-Identifier: MIT\n".toList
          "package main\n".toList)
      = ("// SPDX-License-Identifier: MIT\n// SPDX-License-Identifier: MIT\n" ++
          "package main\n\n\n").toList ∧
    rewrite ["SPDX-License-Identifier".toList] "// SPDX-License-Identifier: MIT\n".toList
        (rewrite ["SPDX-License-Identifier".toList] "// SPDX-License-Identifier: MIT\n".toList
          "package main\n".toList)
      ≠ rewrite ["SPDX-License-Identifier".toList] "// SPDX-License-Identifier: MIT\n".toList
          "package main\n".toList := by
  decide

/-- C6 (evaluation at a failing input): for the text made of a license line,
an empty line, "package main" and "func main() {}", findLineStart returns 1,
the number of the matched license line itself, and the rewritten file still
carries that line right below the new header. -/
theorem c6_license_line_kept :
    FirstPkgLineAt "// LICENSE\n\npackage main\nfunc main() \x7b\x7d".toList 3 ∧
    HasFragmentAt ["LICENSE".toList] "// LICENSE\n\npackage main\nfunc main() \x7b\x7d".toList 1 ∧
    findLineStart ["LICENSE".toList] "// LICENSE\n\npackage main\nfunc main() \x7b\x7d".toList = 1 ∧
    rewrite ["LICENSE".toList] "// NEW\n".toList
        "// LICENSE\n\npackage main\nfunc main() \x7b\x7d".toList
      = "// NEW\n// LICENSE\n\npackage main\nfunc main() \x7b\x7d\n".toList ∧
    contains
        (rewrite ["LICENSE".toList] "// NEW\n".toList
          "// LICENSE\n\npackage main\nfunc main() \x7b\x7d".toList)
        "// LICENSE".toList = true := by
  decide

/-- C7 (evaluation at a failing input): for the text "package main",
"func main() {}" with its final newline, line 1 starts with "package " and
findLineStart returns 1, but the assembled output is the header followed by the
text and one more newline, not the header followed by the unchanged text: the
empty piece after the final newline is written back with a newline of its own. -/
theorem c7_trailing_newline_added :
    IsPkgLine "package main\nfunc main() \x7b\x7d\n".toList 1 ∧
    findLineStart ["LICENSE".toList] "package main\nfunc main() \x7b\x7d\n".toList = 1 ∧
    "// H\n".toList ++ trimSource "package main\nfunc main() \x7b\x7d\n".toList 1
      = "// H\npackage main\nfunc main() \x7b\x7d\n\n".toList ∧
    "// H\n".toList ++ trimSource "package main\nfunc main() \x7b\x7d\n".toList 1
      ≠ "// H\n".toList ++ "package main\nfunc main() \x7b\x7d\n".toList := by
  decide

/-- C8 (amended): for every text with no line starting with "package " in
which no line at position 2 or later contains a registered fragment,
trimSource(text, findLineStart(text)) keeps every line of the text, in order. -/
theorem c8_no_decl_keeps_all (licenses : List Text) (src : Text)
    (hno : NoPkgLine src) (hfrag : NoFragmentAfterFirst licenses src) :
    trimSource src (findLineStart licenses src) = joinLines (splitLines src) := by
  rcases findLineStart_of_noPkgLine licenses src hno with ⟨h1, _⟩ | ⟨m, h1, hm1, hf, _⟩
  · rw [h1, trimSource_eq_drop]
    have e : (wrapInt (0 - 1)).toNat = 0 := by decide
    rw [e, List.drop_zero]
  · have hm2 : m < 2 := by
      by_contra hc
      exact (noFragmentAfterFirst_iff licenses src).mp hfrag m (by omega) hf
    have hm : m = 1 := by omega
    subst hm
    rw [h1, trimSource_eq_drop]
    have e : (wrapInt (((1 : Nat) : Int) - 1)).toNat = 0 := by decide
    rw [e, List.drop_zero]

/-- Witness for C8 (amended): no declaration and a fragment on line 1 only;
findLineStart returns 1 and every line is kept. -/
theorem c8_no_decl_keeps_all_witness :
    trimSource "// LICENSE\nfunc f()".toList
        (findLineStart ["LICENSE".toList] "// LICENSE\nfunc f()".toList)
      = joinLines (splitLines "// LICENSE\nfunc f()".toList) :=
  c8_no_decl_keeps_all ["LICENSE".toList] "// LICENSE\nfunc f()".toList (by decide) (by decide)

/-- C8 as stated fails when line 2 or a later line of a text without
declaration contains a fragment: the second loop scans the whole text,
findLineStart returns the number of the last such line, and the lines before
it are dropped. -/
theorem c8_counterexample :
    NoPkgLine "hello\n// LICENSE\nworld".toList ∧
    findLineStart ["LICENSE".toList] "hello\n// LICENSE\nworld".toList = 2 ∧
    trimSource "hello\n// LICENSE\nworld".toList
        (findLineStart ["LICENSE".toList] "hello\n// LICENSE\nworld".toList)
      = "// LICENSE\nworld\n".toList ∧
    trimSource "hello\n// LICENSE\nworld".toList
        (findLineStart ["LICENSE".toList] "hello\n// LICENSE\nworld".toList)
      ≠ joinLines (splitLines "hello\n// LICENSE\nworld".toList) := by
  decide

/-- C9 (amended): for every text with no line starting with "package ", the
empty text included, findLineStart returns 0 exactly when no line of the text
contains a registered fragment. -/
theorem c9_no_decl_boundary (licenses : List Text) (src : Text) (hno : NoPkgLine src) :
    findLineStart licenses src = 0 ↔ NoFragment licenses src := by
  rcases findLineStart_of_noPkgLine licenses src hno with ⟨h1, h2⟩ | ⟨m, h1, hm1, hf, _⟩
  · exact ⟨fun _ => h2, fun _ => h1⟩
  · constructor
    · intro h0
      rw [h1] at h0
      omega
    · intro hfrag
      exact absurd hf ((noFragment_iff licenses src).mp hfrag m)

/-- Witness for C9 (amended): the empty text. -/
theorem c9_no_decl_boundary_witness :
    findLineStart ["LICENSE".toList] [] = 0 ↔ NoFragment ["LICENSE".toList] [] :=
  c9_no_decl_boundary ["LICENSE".toList] [] (by decide)

/-- C9 as stated fails when a line of a text without declaration contains a
fragment: pkgLine-1 is -1, no index equals it, the whole text is scanned and
the result is the number of the last matching line, not 0. -/
theorem c9_counterexample :
    NoPkgLine "// LICENSE\nfunc f()".toList ∧
    findPkgLine (splitLines "// LICENSE\nfunc f()".toList) 0 = 0 ∧
    scanLicenses ["LICENSE".toList] 0 (splitLines "// LICENSE\nfunc f()".toList) 0 [] = [1] ∧
    findLineStart ["LICENSE".toList] "// LICENSE\nfunc f()".toList = 1 ∧
    findLineStart ["LICENSE".toList] "// LICENSE\nfunc f()".toList ≠ 0 := by
  decide

/-- C10 (declaration and code after it are never deleted): when the first line
starting with "package " is line d, findLineStart returns a value between 1
and d, the value is the same for every text with the same first d lines, and
trimSource(text, findLineStart(text)) ends with line ++ "\n" for every line
from line d to the last, in order. -/
theorem c10_declaration_kept (licenses : List Text) (src : Text) (d : Nat)
    (hfirst : FirstPkgLineAt src d) :
    1 ≤ findLineStart licenses src ∧ findLineStart licenses src ≤ (d : Int) ∧
    (∀ src', (splitLines src').take d = (splitLines src).take d →
      findLineStart licenses src' = findLineStart licenses src) ∧
    ∃ pre, trimSource src (findLineStart licenses src)
      = pre ++ joinLines ((splitLines src).drop (d - 1)) := by
  have hrange := findLineStart_range_of_first licenses src d hfirst
  exact ⟨hrange.1, hrange.2, fun src' h => findLineStart_congr licenses src src' d hfirst h,
    trimSource_keeps_from_decl licenses src d hfirst⟩

/-- Witness for C10: fragments before and after the declaration on line 3. -/
theorem c10_declaration_kept_witness :
    1 ≤ findLineStart ["LICENSE".toList]
        "// LICENSE\n//\npackage main\n// LICENSE\nfunc main() \x7b\x7d\n".toList ∧
    findLineStart ["LICENSE".toList]
        "// LICENSE\n//\npackage main\n// LICENSE\nfunc main() \x7b\x7d\n".toList ≤ ((3 : Nat) : Int) ∧
    (∀ src', (splitLines src').take 3
        = (splitLines "// LICENSE\n//\npackage main\n// LICENSE\nfunc main() \x7b\x7d\n".toList).take 3 →
      findLineStart ["LICENSE".toList] src' = findLineStart ["LICENSE".toList]
        "// LICENSE\n//\npackage main\n// LICENSE\nfunc main() \x7b\x7d\n".toList) ∧
    ∃ pre, trimSource "// LICENSE\n//\npackage main\n// LICENSE\nfunc main() \x7b\x7d\n".toList
        (findLineStart ["LICENSE".toList]
          "// LICENSE\n//\npackage main\n// LICENSE\nfunc main() \x7b\x7d\n".toList)
      = pre ++ joinLines
          ((splitLines "// LICENSE\n//\npackage main\n// LICENSE\nfunc main() \x7b\x7d\n".toList).drop
            (3 - 1)) :=
  c10_declaration_kept ["LICENSE".toList]
    "// LICENSE\n//\npackage main\n// LICENSE\nfunc main() \x7b\x7d\n".toList 3 (by decide)
